import Mathlib

/-!
Shallow embedding of `ga_opt.py` (GA-driven CMOS amplifier sizing).

Python floats are modelled as exact rationals wrapped in `F`, which adds the
non-finite values (`nan`, `inf`, `ninf`) so that the NaN-coercion logic of
`fitness_eval` is representable.  Numeric strings captured by the measurement
regexes are parsed into `Dec` (decimal mantissa/exponent) pairs, whose rational
value is `Dec.toRat`.  Fallible Python code (uncaught exceptions) is modelled
with `Option`: `none` is an exception propagating to the caller.
-/

/-- Model of a Python float: a finite rational or a non-finite value. -/
inductive F where
  | fin (q : ℚ)
  | nan
  | inf
  | ninf
deriving DecidableEq, Repr

/-- math.isfinite. -/
def F.isFinite : F → Bool
  | .fin _ => true
  | _ => false

/-- Float strict greater-than: comparisons with nan are false. -/
def F.fgt : F → F → Bool
  | .nan, _ => false
  | _, .nan => false
  | .inf, .inf => false
  | .inf, _ => true
  | _, .inf => false
  | .ninf, _ => false
  | .fin _, .ninf => true
  | .fin a, .fin b => decide (b < a)

/-- Float strict less-than. -/
def F.flt (a b : F) : Bool := F.fgt b a

/-- Float equality test (`==`): nan is not equal to anything, itself included. -/
def F.beq : F → F → Bool
  | .fin a, .fin b => decide (a = b)
  | .inf, .inf => true
  | .ninf, .ninf => true
  | _, _ => false

/-- Float negation. -/
def F.neg : F → F
  | .fin q => .fin (-q)
  | .nan => .nan
  | .inf => .ninf
  | .ninf => .inf

/-- Python abs() on floats. -/
def F.fabs : F → F
  | .fin q => .fin |q|
  | .nan => .nan
  | _ => .inf

/-- Float addition with the usual non-finite propagation rules. -/
def F.add : F → F → F
  | .nan, _ => .nan
  | _, .nan => .nan
  | .inf, .ninf => .nan
  | .ninf, .inf => .nan
  | .inf, _ => .inf
  | _, .inf => .inf
  | .ninf, _ => .ninf
  | _, .ninf => .ninf
  | .fin a, .fin b => .fin (a + b)

/-- Float subtraction. -/
def F.sub (a b : F) : F := F.add a (F.neg b)

/-- Float multiplication with the usual non-finite propagation rules. -/
def F.mul : F → F → F
  | .nan, _ => .nan
  | _, .nan => .nan
  | .fin a, .fin b => .fin (a * b)
  | .inf, .inf => .inf
  | .inf, .ninf => .ninf
  | .ninf, .inf => .ninf
  | .ninf, .ninf => .inf
  | .inf, .fin b => if b = 0 then .nan else if 0 < b then .inf else .ninf
  | .fin a, .inf => if a = 0 then .nan else if 0 < a then .inf else .ninf
  | .ninf, .fin b => if b = 0 then .nan else if 0 < b then .ninf else .inf
  | .fin a, .ninf => if a = 0 then .nan else if 0 < a then .ninf else .inf

/-- Float division.  Division of a finite float by finite zero raises
ZeroDivisionError in Python; it is modelled as nan here because the only call
site (crowding distance) guards the divisor away from zero. -/
def F.div : F → F → F
  | .nan, _ => .nan
  | _, .nan => .nan
  | .fin _, .inf => .fin 0
  | .fin _, .ninf => .fin 0
  | .fin a, .fin b => if b = 0 then .nan else .fin (a / b)
  | .inf, .inf => .nan
  | .inf, .ninf => .nan
  | .ninf, .inf => .nan
  | .ninf, .ninf => .nan
  | .inf, .fin b => if 0 ≤ b then .inf else .ninf
  | .ninf, .fin b => if 0 ≤ b then .ninf else .inf

/-- Exact value of a parsed numeric literal: mantissa times a power of ten. -/
structure Dec where
  m : ℤ
  e : ℤ
deriving DecidableEq, Repr

/-- Rational value denoted by a parsed numeric literal. -/
def Dec.toRat (d : Dec) : ℚ := (d.m : ℚ) * (10 : ℚ) ^ d.e

/-- Search-space bound, `WN_MIN, WN_MAX = 3e-6, 20e-6`. -/
def WN_MIN : ℚ := 3 / 1000000

/-- Search-space bound, `WN_MIN, WN_MAX = 3e-6, 20e-6`. -/
def WN_MAX : ℚ := 20 / 1000000

/-- Search-space bound, `WP_MIN, WP_MAX = 5e-6, 50e-6`. -/
def WP_MIN : ℚ := 5 / 1000000

/-- Search-space bound, `WP_MIN, WP_MAX = 5e-6, 50e-6`. -/
def WP_MAX : ℚ := 50 / 1000000

/-- Search-space bound, `V_MIN, V_MAX = 1.0, 5.0`. -/
def V_MIN : ℚ := 1

/-- Search-space bound, `V_MIN, V_MAX = 1.0, 5.0`. -/
def V_MAX : ℚ := 5

/-- A genome: the three genes Wn, Wp, Vbias (a DEAP Individual's list part). -/
structure Genome where
  Wn : ℚ
  Wp : ℚ
  Vbias : ℚ
deriving DecidableEq, Repr

/-- np.clip(x, lo, hi). -/
def clipQ (lo hi x : ℚ) : ℚ := min (max x lo) hi

/-- clip_params: componentwise clipping of the three genes to their bounds. -/
def clip_params (ind : Genome) : Genome :=
  ⟨clipQ WN_MIN WN_MAX ind.Wn, clipQ WP_MIN WP_MAX ind.Wp, clipQ V_MIN V_MAX ind.Vbias⟩

/-- The chained bounds test at the top of fitness_eval:
`WN_MIN <= Wn <= WN_MAX and WP_MIN <= Wp <= WP_MAX and V_MIN <= V <= V_MAX`. -/
def inBoundsB (ind : Genome) : Bool :=
  decide (WN_MIN ≤ ind.Wn ∧ ind.Wn ≤ WN_MAX ∧ WP_MIN ≤ ind.Wp ∧ ind.Wp ≤ WP_MAX ∧
    V_MIN ≤ ind.Vbias ∧ ind.Vbias ≤ V_MAX)

/-- Python str.lower applied to a character list (markers are ASCII). -/
def lowerL (cs : List Char) : List Char := cs.map Char.toLower

/-- Python substring containment `pat in txt` over character lists. -/
def containsSub (pat : List Char) : List Char → Bool
  | [] => pat.isEmpty
  | c :: t => pat.isPrefixOf (c :: t) || containsSub pat t

/-- Case-insensitive containment `m.lower() in txt.lower()` used on the fatal
markers. -/
def containsCI (txt pat : String) : Bool :=
  containsSub (lowerL pat.toList) (lowerL txt.toList)

/-- FATAL_MARKERS, in the tuple order of the source. -/
def FATAL_MARKERS : List String :=
  ["Fatal Error", "Failed to find DC operating point",
   "Gmin stepping failed", "Could not converge to DC",
   "effective channel length less than zero",
   "Unknown model",
   "Can\x27t open"]

/-- Whitespace class of the regex escape backslash-s (ASCII part). -/
def isWs (c : Char) : Bool :=
  c = ' ' || c = '\t' || c = '\n' || c = '\r' || c = '\x0b' || c = '\x0c'

/-- Character class of the GAIN_DB and FC captures. -/
def isNumC (c : Char) : Bool :=
  c.isDigit || c = '-' || c = '+' || c = '.' || c = 'e' || c = 'E'

/-- Character class of the IDD capture (note: no plus sign in the source). -/
def isIddC (c : Char) : Bool :=
  c.isDigit || c = '-' || c = '.' || c = 'e' || c = 'E'

/-- Case-insensitive literal match at the head; returns the remainder.  The
pattern is supplied lowercased, mirroring re.I. -/
def ciPre : List Char → List Char → Option (List Char)
  | [], cs => some cs
  | _ :: _, [] => none
  | p :: ps, c :: cs => if p = c.toLower then ciPre ps cs else none

/-- Attempt of the GAIN_DB regex at one position:
gain_db: backslash-s* MAX(db(v(out)/v(in)))=( capture. -/
def matchGainAt (cs : List Char) : Option (List Char) := do
  let r1 ← ciPre "gain_db:".toList cs
  let r2 := r1.dropWhile isWs
  let r3 ← ciPre "max(db(v(out)/v(in)))=(".toList r2
  let cap := r3.takeWhile isNumC
  if cap.isEmpty then none else some cap

/-- Attempt of the FC regex at one position: fc backslash-s* = backslash-s* capture. -/
def matchFcAt (cs : List Char) : Option (List Char) := do
  let r1 ← ciPre "fc".toList cs
  let r2 := r1.dropWhile isWs
  let r3 ← ciPre "=".toList r2
  let r4 := r3.dropWhile isWs
  let cap := r4.takeWhile isNumC
  if cap.isEmpty then none else some cap

/-- Attempt of the IDD regex at one position: idd backslash-s* = backslash-s* capture. -/
def matchIddAt (cs : List Char) : Option (List Char) := do
  let r1 ← ciPre "idd".toList cs
  let r2 := r1.dropWhile isWs
  let r3 ← ciPre "=".toList r2
  let r4 := r3.dropWhile isWs
  let cap := r4.takeWhile isIddC
  if cap.isEmpty then none else some cap

/-- re.search: try the pattern at every start position, leftmost first. -/
def searchWith (m : List Char → Option (List Char)) : List Char → Option (List Char)
  | [] => m []
  | c :: t =>
    match m (c :: t) with
    | some r => some r
    | none => searchWith m t

/-- Integer value of a digit string. -/
def digitsVal (ds : List Char) : ℤ :=
  ds.foldl (fun acc c => acc * 10 + ((c.toNat : ℤ) - 48)) 0

/-- Leading sign of a numeric literal. -/
def splitSign : List Char → ℤ × List Char
  | '-' :: t => (-1, t)
  | '+' :: t => (1, t)
  | cs => (1, cs)

/-- Python float() on a captured string, as an exact decimal; `none` models
ValueError. -/
def parseFloat (cs : List Char) : Option Dec :=
  let (sgn, cs1) := splitSign cs
  let ip := cs1.takeWhile Char.isDigit
  let cs2 := cs1.drop ip.length
  let (fp, cs3) :=
    match cs2 with
    | '.' :: t => (t.takeWhile Char.isDigit, t.drop (t.takeWhile Char.isDigit).length)
    | _ => ([], cs2)
  if ip.isEmpty && fp.isEmpty then none
  else
    let mant := sgn * digitsVal (ip ++ fp)
    match cs3 with
    | [] => some ⟨mant, -(fp.length : ℤ)⟩
    | e :: t =>
      if e = 'e' || e = 'E' then
        let (esgn, t1) := splitSign t
        let ed := t1.takeWhile Char.isDigit
        let t2 := t1.drop ed.length
        if ed.isEmpty then none
        else if t2.isEmpty then some ⟨mant, esgn * digitsVal ed - (fp.length : ℤ)⟩
        else none
      else none

/-- Result of parse_log: a dict with ok=False and a reason, or ok=True plus the
optional measurements. -/
inductive ParseResult where
  | failure (reason : String)
  | success (gain_db fc idd : Option Dec)
deriving DecidableEq, Repr

/-- parse_log on the text of an existing log file.  `none` models an uncaught
exception (float() raising on a malformed capture). -/
def parse_log (txt : String) : Option ParseResult :=
  let cs := txt.toList
  match FATAL_MARKERS.find? (fun m => containsCI txt m) with
  | some m => some (.failure m)
  | none =>
    let gainRes : Option (Option Dec) :=
      match searchWith matchGainAt cs with
      | none => some none
      | some cap =>
        match parseFloat cap with
        | none => none
        | some d => some (some d)
    match gainRes with
    | none => none
    | some g =>
      let f : Option Dec :=
        match searchWith matchFcAt cs with
        | none => none
        | some cap => parseFloat cap
      let iddRes : Option (Option Dec) :=
        match searchWith matchIddAt cs with
        | none => some none
        | some cap =>
          match parseFloat cap with
          | none => none
          | some d => some (some d)
      match iddRes with
      | none => none
      | some idd =>
        if containsSub "gain_db: FAILED".toList (lowerL cs) then
          some (.failure "GAIN_DB measurement FAILED")
        else
          some (.success g f idd)

/-- Outcome of the subprocess call inside run_ltspice: the run may exceed the
timeout (subprocess.TimeoutExpired), the executable may be missing
(FileNotFoundError), or the process completes with a return code, having
created the .log file (carried here as its text) or not. -/
inductive ProcOutcome where
  | timeout
  | notFound
  | completed (rc : ℤ) (log : Option String)
deriving DecidableEq, Repr

/-- run_ltspice, restricted to the data fitness_eval consumes: the status
string and the log file (its text when it exists).  The exception handlers of
the source turn the two exceptional outcomes into the statuses TIMEOUT and
NOT_FOUND; a completed run gets OK when the log exists, else an RC= status. -/
def run_ltspice : ProcOutcome → String × Option String
  | .timeout => ("TIMEOUT", none)
  | .notFound => ("NOT_FOUND", none)
  | .completed rc log => (if log.isSome then "OK" else "RC=" ++ toString rc, log)

/-- Fitness triple (gain_dB, UGBW, power) as Python floats. -/
abbrev F3 := F × F × F

/-- The sentinel penalty fitness (-360.0, 0.0, 1e3). -/
def sentinelF : F3 := (F.fin (-360), F.fin 0, F.fin 1000)

/-- Lines 195-216 of fitness_eval: turn the measurement dict of a successful
parse into the fitness triple (defaults, power law, NaN coercion, and the
missing-gain test).  The arguments are the dict entries as floats. -/
def fitFromParsed (g fc idd : Option F) : F3 :=
  let gain_db := g.getD (F.fin (-360))
  let ugbw := fc.getD (F.fin 0)
  let iddv := F.fabs (idd.getD (F.fin 1000000000))
  let power := if F.fgt iddv (F.fin 1000) then F.fin 1000 else F.mul (F.fin 5) iddv
  let gain_db := if gain_db.isFinite then gain_db else F.fin (-360)
  let ugbw := if ugbw.isFinite then ugbw else F.fin 0
  let power := if power.isFinite then power else F.fin 1000
  if F.beq gain_db (F.fin (-360)) then sentinelF else (gain_db, ugbw, power)

/-- Float value of a parsed decimal. -/
def Dec.toF (d : Dec) : F := F.fin d.toRat

/-- fitness_eval: bounds guard, simulator invocation, log parsing, and fitness
mapping.  The simulator subprocess outcome is an explicit argument `o`; the
bounds guard precedes any use of it.  `none` models an exception escaping
fitness_eval (only possible from the unguarded float() calls of parse_log). -/
def fitness_eval (o : ProcOutcome) (ind : Genome) : Option F3 :=
  if inBoundsB ind = false then some sentinelF
  else
    let st := run_ltspice o
    if st.1 ≠ "OK" ∨ st.2.isNone then some sentinelF
    else
      match st.2 with
      | none => some sentinelF
      | some txt =>
        match parse_log txt with
        | none => none
        | some (.failure _) => some sentinelF
        | some (.success g f i) =>
          some (fitFromParsed (g.map Dec.toF) (f.map Dec.toF) (i.map Dec.toF))

/-- The final-selection scalarization, `f[0] + 1e-6 * f[1] - 1e3 * f[2]`,
on the (finite) objective values. -/
def scalarize (f : ℚ × ℚ × ℚ) : ℚ := f.1 + (1 / 1000000) * f.2.1 - 1000 * f.2.2

/-- A DEAP Individual: the gene list plus the attached fitness slot (invalid
when `none`, i.e. after `del ind.fitness.values`) and the crowding distance
attribute set by selNSGA2. -/
structure Ind where
  g : Genome
  fit : Option F3
  cd : F
deriving DecidableEq, Repr

/-- Default element used for safe list indexing. -/
def dInd : Ind := ⟨⟨0, 0, 0⟩, none, F.fin 0⟩

/-- Weighted fitness values for weights (+1.0, +1.0, -1.0).  A DEAP fitness
with deleted values has empty wvalues, which neither dominates nor is
dominated; the all-nan triple has exactly that property here. -/
def wvaluesOf : Option F3 → F3
  | some (a, b, c) => (a, b, F.neg c)
  | none => (F.nan, F.nan, F.nan)

/-- Port of deap base.Fitness.dominates on the three wvalues: no component
strictly worse, and at least one strictly better. -/
def dominatesW (u v : F3) : Bool :=
  if F.flt u.1 v.1 then false
  else if F.flt u.2.1 v.2.1 then false
  else if F.flt u.2.2 v.2.2 then false
  else F.fgt u.1 v.1 || F.fgt u.2.1 v.2.1 || F.fgt u.2.2 v.2.2

/-- Pareto dominance between individuals. -/
def dominatesInd (a b : Ind) : Bool := dominatesW (wvaluesOf a.fit) (wvaluesOf b.fit)

/-- Whether some member of `l` dominates `x`. -/
def isDominatedIn (l : List Ind) (x : Ind) : Bool := l.any (fun b => dominatesInd b x)

/-- The current non-dominated front of `l`. -/
def nondomFront (l : List Ind) : List Ind := l.filter (fun x => !(isDominatedIn l x))

/-- The complement of the front: members dominated within `l`. -/
def domRest (l : List Ind) : List Ind := l.filter (fun x => isDominatedIn l x)

/-- Front peeling of deap tools.sortNondominated: emit successive non-dominated
fronts until `need` individuals have been sorted.  Fuel bounds the recursion;
`l.length + 1` always suffices. -/
def frontsFrom : Nat → List Ind → Nat → List (List Ind)
  | 0, _, _ => []
  | fuel + 1, l, need =>
    let fr := nondomFront l
    if need ≤ fr.length then [fr]
    else fr :: frontsFrom fuel (domRest l) (need - fr.length)

/-- deap tools.sortNondominated(individuals, k): the fronts covering the first
min(len, k) individuals; empty for k = 0. -/
def sortNondominated (l : List Ind) (k : Nat) : List (List Ind) :=
  if k = 0 then [] else frontsFrom (l.length + 1) l (min l.length k)

/-- Last element with a default (Python's fronts[-1], total). -/
def lastD : List α → α → α
  | [], d => d
  | [a], _ => a
  | _ :: b :: t, d => lastD (b :: t) d

/-- Stable insertion sort; `le x y` means x may stay before y. -/
def insertLe (le : α → α → Bool) (x : α) : List α → List α
  | [] => [x]
  | y :: ys => if le x y then x :: y :: ys else y :: insertLe le x ys

/-- Stable sort by repeated insertion, modelling Python's stable sorted(). -/
def insSortBy (le : α → α → Bool) : List α → List α
  | [] => []
  | x :: t => insertLe le x (insSortBy le t)

/-- Objective projection from a fitness triple. -/
def proj3 : Nat → F3 → F
  | 0, v => v.1
  | 1, v => v.2.1
  | _, v => v.2.2

/-- Raw fitness values of an individual (deap fitness.values). -/
def fitValues (x : Ind) : F3 := x.fit.getD (F.nan, F.nan, F.nan)

/-- Enumerate fitness values with their positions (deap's crowd list). -/
def enumIdx : Nat → List Ind → List (F3 × Nat)
  | _, [] => []
  | i, x :: t => (fitValues x, i) :: enumIdx (i + 1) t

/-- Inner accumulation of assignCrowdingDist: walk consecutive sorted triples
(prev, cur, next) and add the normalized span to cur's distance. -/
def cdUpdates (j : Nat) (norm : F) : List (F3 × Nat) → List F → List F
  | p :: c :: nx :: rest, ds =>
    cdUpdates j norm (c :: nx :: rest)
      (ds.set c.2 (F.add (ds.getD c.2 (F.fin 0)) (F.div (F.sub (proj3 j nx.1) (proj3 j p.1)) norm)))
  | _, ds => ds

/-- One objective pass of deap tools.assignCrowdingDist: sort by the j-th
objective, pin the extremes to infinity, and accumulate normalized spans
(norm = nobj * (max - min), nobj = 3). -/
def cdPass (crowd0 : List (F3 × Nat)) (ds : List F) (j : Nat) : List F :=
  let crowd := insSortBy (fun a b => !(F.fgt (proj3 j a.1) (proj3 j b.1))) crowd0
  match crowd with
  | [] => ds
  | first :: _ =>
    let last := lastD crowd first
    let ds1 := (ds.set first.2 F.inf).set last.2 F.inf
    if F.beq (proj3 j last.1) (proj3 j first.1) then ds1
    else cdUpdates j (F.mul (F.fin 3) (F.sub (proj3 j last.1) (proj3 j first.1))) crowd ds1

/-- deap tools.assignCrowdingDist: compute the crowding distance of each
individual of a front and store it on the individual. -/
def assignCrowdingDist (l : List Ind) : List Ind :=
  match l with
  | [] => []
  | _ =>
    let crowd0 := enumIdx 0 l
    let ds := [0, 1, 2].foldl (cdPass crowd0) (List.replicate l.length (F.fin 0))
    List.zipWith (fun x d => { x with cd := d }) l ds

/-- deap tools.selNSGA2(individuals, k): all fronts but the last, then the
last front sorted by descending crowding distance, truncated to k total. -/
def selNSGA2 (l : List Ind) (k : Nat) : List Ind :=
  let fronts := (sortNondominated l k).map assignCrowdingDist
  let chosen := fronts.dropLast.flatten
  let kr := k - chosen.length
  chosen ++ (insSortBy (fun a b => !(F.flt a.cd b.cd)) (lastD fronts [])).take kr

/-- Randomness consumed by selTournamentDCD: the two random.sample shuffles
(as index permutations) and the tie-break coin of each tournament. -/
structure TournRand where
  perm1 : Nat → Nat
  perm2 : Nat → Nat
  coin : Nat → Bool

/-- One dominance-and-crowding tournament (deap's tourn closure). -/
def tourn (coin : Bool) (a b : Ind) : Ind :=
  if dominatesInd a b then a
  else if dominatesInd b a then b
  else if F.flt a.cd b.cd then b
  else if F.fgt a.cd b.cd then a
  else if coin then a else b

/-- random.sample(l, len(l)) modelled as reindexing by a permutation function;
any function yields a list of the same length built from members of l. -/
def shuffleBy (perm : Nat → Nat) (l : List Ind) : List Ind :=
  (List.range l.length).map (fun i => l.getD (perm i % l.length) dInd)

/-- The tournament loop of selTournamentDCD: four winners per step of 4. -/
def dcdQuads (c : Nat → Bool) (l1 l2 : List Ind) : Nat → Nat → List Ind
  | 0, _ => []
  | q + 1, i =>
    tourn (c i) (l1.getD i dInd) (l1.getD (i + 1) dInd) ::
    tourn (c (i + 1)) (l1.getD (i + 2) dInd) (l1.getD (i + 3) dInd) ::
    tourn (c (i + 2)) (l2.getD i dInd) (l2.getD (i + 1) dInd) ::
    tourn (c (i + 3)) (l2.getD (i + 2) dInd) (l2.getD (i + 3) dInd) ::
    dcdQuads c l1 l2 q (i + 4)

/-- deap tools.selTournamentDCD(individuals, k); `none` models the ValueError
raised when k exceeds the population or is not a multiple of four. -/
def selTournamentDCD (tr : TournRand) (l : List Ind) (k : Nat) : Option (List Ind) :=
  if k > l.length then none
  else if k % 4 ≠ 0 then none
  else some (dcdQuads tr.coin (shuffleBy tr.perm1 l) (shuffleBy tr.perm2 l) (k / 4) 0)

/-- Blend crossover alpha (toolbox.register("mate", tools.cxBlend, alpha=0.3)). -/
def ALPHA : ℚ := 3 / 10

/-- The per-gene blend coefficient of deap tools.cxBlend:
gamma = (1 + 2 alpha) * random() - alpha, with the uniform draw as argument. -/
def gammaOf (u : ℚ) : ℚ := (1 + 2 * ALPHA) * u - ALPHA

/-- deap tools.cxBlend on the three genes, with the three uniform draws as
arguments; returns the two children. -/
def cxBlend (u : ℚ × ℚ × ℚ) (x y : Genome) : Genome × Genome :=
  let g1 := gammaOf u.1
  let g2 := gammaOf u.2.1
  let g3 := gammaOf u.2.2
  (⟨(1 - g1) * x.Wn + g1 * y.Wn, (1 - g2) * x.Wp + g2 * y.Wp,
    (1 - g3) * x.Vbias + g3 * y.Vbias⟩,
   ⟨g1 * x.Wn + (1 - g1) * y.Wn, g2 * x.Wp + (1 - g2) * y.Wp,
    g3 * x.Vbias + (1 - g3) * y.Vbias⟩)

/-- deap tools.mutGaussian(mu=0, sigma=0.15, indpb=0.5): each gene is
perturbed when its indpb draw fires; the Gaussian draws are arguments. -/
def mutGaussian (flags : Bool × Bool × Bool) (gs : ℚ × ℚ × ℚ) (x : Genome) : Genome :=
  ⟨if flags.1 then x.Wn + gs.1 else x.Wn,
   if flags.2.1 then x.Wp + gs.2.1 else x.Wp,
   if flags.2.2 then x.Vbias + gs.2.2 else x.Vbias⟩

/-- The crossover loop of main: for even i, when the cxpb draw fires and a
partner exists, mate offspring[i] with offspring[i+1] and invalidate both
fitnesses.  No clipping happens here. -/
def varyCx (flag : Nat → Bool) (us : Nat → ℚ × ℚ × ℚ) : Nat → List Ind → List Ind
  | i, a :: b :: rest =>
    if flag i then
      let c := cxBlend (us i) a.g b.g
      { a with g := c.1, fit := none } :: { b with g := c.2, fit := none } ::
        varyCx flag us (i + 2) rest
    else a :: b :: varyCx flag us (i + 2) rest
  | _, l => l

/-- The body of the mutation loop of main: when the mutpb draw fires, mutate,
clip to bounds, and invalidate the fitness. -/
def mutStep (mflag : Bool) (ipb : Bool × Bool × Bool) (gs : ℚ × ℚ × ℚ) (x : Ind) : Ind :=
  if mflag then { x with g := clip_params (mutGaussian ipb gs x.g), fit := none } else x

/-- The mutation loop of main over the offspring list. -/
def varyMut (mflag : Nat → Bool) (ipb : Nat → Bool × Bool × Bool) (gs : Nat → ℚ × ℚ × ℚ) :
    Nat → List Ind → List Ind
  | _, [] => []
  | i, x :: t => mutStep (mflag i) (ipb i) (gs i) x :: varyMut mflag ipb gs (i + 1) t

/-- fits = list(map(toolbox.evaluate, pop)) plus the fitness assignment, for
the initial population (every member is evaluated).  `none` models an
exception escaping an evaluation. -/
def evalAll (ev : Genome → Option F3) : List Ind → Option (List Ind)
  | [] => some []
  | x :: t => do
    let f ← ev x.g
    let rest ← evalAll ev t
    some ({ x with fit := some f } :: rest)

/-- Evaluation of the invalid offspring inside the generation loop: exactly
the individuals whose fitness was invalidated are re-evaluated. -/
def evalInvalid (ev : Genome → Option F3) : List Ind → Option (List Ind)
  | [] => some []
  | x :: t => do
    let x' ← if x.fit.isNone then (ev x.g).map (fun f => { x with fit := some f }) else some x
    let rest ← evalInvalid ev t
    some (x' :: rest)

/-- Randomness consumed by one generation of main. -/
structure GenRand where
  tr : TournRand
  cxFlag : Nat → Bool
  cxU : Nat → ℚ × ℚ × ℚ
  mutFlag : Nat → Bool
  mutIndpb : Nat → Bool × Bool × Bool
  mutGauss : Nat → ℚ × ℚ × ℚ

/-- One gen > 0 iteration of main's loop: tournament selection of len(pop)
offspring, cloning (implicit in the functional embedding), crossover,
mutation with clipping, re-evaluation of invalidated offspring, and elitist
replacement selNSGA2(pop + offspring, pop_size). -/
def runGen (ev : Genome → Option F3) (r : GenRand) (popSize : Nat) (pop : List Ind) :
    Option (List Ind) := do
  let off ← selTournamentDCD r.tr pop pop.length
  let off := varyCx r.cxFlag r.cxU 0 off
  let off := varyMut r.mutFlag r.mutIndpb r.mutGauss 0 off
  let off ← evalInvalid ev off
  some (selNSGA2 (pop ++ off) popSize)

/-- The generation loop, returning the population at each generation boundary
(the statistics printing and the Pareto-front archive do not alter the
population and are omitted). -/
def runGens (ev : Genome → Option F3) (rand : Nat → GenRand) (popSize : Nat) :
    Nat → Nat → List Ind → Option (List (List Ind))
  | _, 0, pop => some [pop]
  | gen, n + 1, pop => do
    let pop' ← runGen ev (rand gen) popSize pop
    let tr ← runGens ev rand popSize (gen + 1) n pop'
    some (pop :: tr)

/-- The four anchor genomes appended to the initial random population. -/
def anchors : List Genome :=
  [⟨5 / 1000000, 10 / 1000000, 3 / 2⟩, ⟨10 / 1000000, 20 / 1000000, 2⟩,
   ⟨3 / 1000000, 15 / 1000000, 5 / 2⟩, ⟨8 / 1000000, 8 / 1000000, 3⟩]

/-- main(seed, pop_size, ngen, ...): random initial genomes (an argument here)
plus the anchors, all clipped, all evaluated, trimmed to pop_size by selNSGA2,
then ngen generations.  The result lists the population at every generation
boundary: ngen + 1 entries, one per iteration of `for gen in range(ngen + 1)`. -/
def runGA (ev : Genome → Option F3) (rand : Nat → GenRand) (popSize ngen : Nat)
    (initG : List Genome) : Option (List (List Ind)) := do
  let pop0 := (initG ++ anchors).map (fun x => Ind.mk (clip_params x) none (F.fin 0))
  let pop1 ← evalAll ev pop0
  runGens ev rand popSize 1 ngen (selNSGA2 pop1 popSize)

/-- An individual with a valid, all-finite fitness triple. -/
def FiniteFit (x : Ind) : Prop := ∃ a b c, x.fit = some (F.fin a, F.fin b, F.fin c)

/-- Total number of individuals in a list of fronts. -/
def sumLen (fs : List (List Ind)) : Nat := (fs.map List.length).sum

/-- Hypothesis that the evaluation function always succeeds with a finite
fitness triple (which `fitness_eval` provably does). -/
def oracleFin (ev : Genome → Option F3) : Prop :=
  ∀ g, ∃ a b c, ev g = some (F.fin a, F.fin b, F.fin c)

/-- A population of the target size whose members all carry valid finite
fitness triples. -/
def GoodPop (n : Nat) (pop : List Ind) : Prop :=
  pop.length = n ∧ ∀ x ∈ pop, FiniteFit x

/-- A pair of parents inside the search-space bounds, used to exercise the
crossover loop on concrete data. -/
def cxDemoParents : List Ind :=
  [⟨⟨3 / 1000000, 5 / 1000000, 1⟩, some (F.fin 1, F.fin 1, F.fin 1), F.fin 0⟩,
   ⟨⟨20 / 1000000, 50 / 1000000, 5⟩, some (F.fin 1, F.fin 1, F.fin 1), F.fin 0⟩]

/-- The variation pipeline of one generation applied to `cxDemoParents` with
the crossover draw firing (uniform draw 0.9, so gamma = 1.14) and the
mutation draws not firing. -/
def cxDemoOffspring : List Ind :=
  varyMut (fun _ => false) (fun _ => (false, false, false)) (fun _ => (0, 0, 0)) 0
    (varyCx (fun _ => true) (fun _ => (9 / 10, 1 / 2, 1 / 2)) 0 cxDemoParents)

/-- Constant tournament randomness, for concrete instantiations. -/
def cTournRand : TournRand := ⟨fun _ => 0, fun _ => 0, fun _ => true⟩

/-- Constant generation randomness, for concrete instantiations. -/
def cGenRand : GenRand :=
  ⟨cTournRand, fun _ => false, fun _ => (0, 0, 0), fun _ => false,
   fun _ => (false, false, false), fun _ => (0, 0, 0)⟩

/-- An evaluation oracle returning a fixed finite fitness, for concrete
instantiations. -/
def cOracle : Genome → Option F3 := fun _ => some (F.fin 1, F.fin 1, F.fin 1)

/-- The all-zero genome (outside the bounds). -/
def gZero : Genome := ⟨0, 0, 0⟩

/-! Lemmas about the dominance order and non-dominated front peeling. -/

theorem F.fgt_irrefl (u : F) : F.fgt u u = false := by
  cases u <;> simp [F.fgt]

theorem dominatesW_irrefl (u : F3) : dominatesW u u = false := by
  unfold dominatesW F.flt
  simp [F.fgt_irrefl]

theorem dominatesInd_irrefl (x : Ind) : dominatesInd x x = false := by
  unfold dominatesInd; exact dominatesW_irrefl _

theorem domW_fin_char (a1 a2 a3 b1 b2 b3 : ℚ) :
    dominatesW (F.fin a1, F.fin a2, F.fin a3) (F.fin b1, F.fin b2, F.fin b3) = true ↔
      (b1 ≤ a1 ∧ b2 ≤ a2 ∧ b3 ≤ a3 ∧ (b1 < a1 ∨ b2 < a2 ∨ b3 < a3)) := by
  unfold dominatesW F.flt
  simp only [F.fgt, decide_eq_true_eq, Bool.or_eq_true]
  split_ifs with h1 h2 h3
  · simp only [Bool.false_eq_true, false_iff]
    rintro ⟨c1, -, -, -⟩
    exact absurd h1 (not_lt.mpr c1)
  · simp only [Bool.false_eq_true, false_iff]
    rintro ⟨-, c2, -, -⟩
    exact absurd h2 (not_lt.mpr c2)
  · simp only [Bool.false_eq_true, false_iff]
    rintro ⟨-, -, c3, -⟩
    exact absurd h3 (not_lt.mpr c3)
  · simp only [Bool.or_eq_true, decide_eq_true_eq]
    constructor
    · intro h
      exact ⟨not_lt.mp h1, not_lt.mp h2, not_lt.mp h3, or_assoc.mp h⟩
    · intro h
      exact or_assoc.mpr h.2.2.2

theorem domW_trans {a b c : F3}
    (ha : ∃ x y z, a = (F.fin x, F.fin y, F.fin z))
    (hb : ∃ x y z, b = (F.fin x, F.fin y, F.fin z))
    (hc : ∃ x y z, c = (F.fin x, F.fin y, F.fin z))
    (h1 : dominatesW a b = true) (h2 : dominatesW b c = true) : dominatesW a c = true := by
  obtain ⟨x1, y1, z1, rfl⟩ := ha
  obtain ⟨x2, y2, z2, rfl⟩ := hb
  obtain ⟨x3, y3, z3, rfl⟩ := hc
  rw [domW_fin_char] at h1 h2 ⊢
  obtain ⟨p1, p2, p3, ps⟩ := h1
  obtain ⟨q1, q2, q3, qs⟩ := h2
  refine ⟨le_trans q1 p1, le_trans q2 p2, le_trans q3 p3, ?_⟩
  rcases ps with h | h | h
  · exact Or.inl (lt_of_le_of_lt q1 h)
  · exact Or.inr (Or.inl (lt_of_le_of_lt q2 h))
  · exact Or.inr (Or.inr (lt_of_le_of_lt q3 h))

theorem wvaluesOf_finite {x : Ind} (h : FiniteFit x) :
    ∃ a b c, wvaluesOf x.fit = (F.fin a, F.fin b, F.fin c) := by
  obtain ⟨a, b, c, h⟩ := h
  exact ⟨a, b, -c, by simp [wvaluesOf, h, F.neg]⟩

theorem dominatesInd_trans {x y z : Ind} (hx : FiniteFit x) (hy : FiniteFit y) (hz : FiniteFit z)
    (h1 : dominatesInd x y = true) (h2 : dominatesInd y z = true) : dominatesInd x z = true :=
  domW_trans (wvaluesOf_finite hx) (wvaluesOf_finite hy) (wvaluesOf_finite hz) h1 h2

theorem exists_undominated (l : List Ind) (hne : l ≠ []) (hf : ∀ x ∈ l, FiniteFit x) :
    ∃ m ∈ l, ∀ x ∈ l, dominatesInd x m = false := by
  induction l with
  | nil => exact absurd rfl hne
  | cons a t ih =>
    cases t with
    | nil =>
      refine ⟨a, by simp, ?_⟩
      intro x hx
      rw [List.mem_singleton] at hx
      rw [hx]
      exact dominatesInd_irrefl a
    | cons b t' =>
      obtain ⟨m, hm, hmax⟩ := ih (by simp) (fun x hx => hf x (List.mem_cons_of_mem a hx))
      by_cases hd : dominatesInd a m = true
      · refine ⟨a, List.mem_cons_self a _, ?_⟩
        intro x hx
        rcases List.mem_cons.mp hx with rfl | hx
        · exact dominatesInd_irrefl x
        · by_contra hxa
          have hxa' : dominatesInd x a = true := by
            rcases Bool.eq_false_or_eq_true (dominatesInd x a) with h | h
            · exact h
            · exact absurd h hxa
          have hxm : dominatesInd x m = true :=
            dominatesInd_trans (hf x (List.mem_cons_of_mem a hx))
              (hf a (List.mem_cons_self a _)) (hf m (List.mem_cons_of_mem a hm)) hxa' hd
          rw [hmax x hx] at hxm
          exact absurd hxm (by simp)
      · refine ⟨m, List.mem_cons_of_mem a hm, ?_⟩
        intro x hx
        rcases List.mem_cons.mp hx with rfl | hx
        · simpa using hd
        · exact hmax x hx

theorem nondomFront_ne_nil (l : List Ind) (hne : l ≠ []) (hf : ∀ x ∈ l, FiniteFit x) :
    nondomFront l ≠ [] := by
  obtain ⟨m, hm, hmax⟩ := exists_undominated l hne hf
  have hmem : m ∈ nondomFront l := by
    rw [nondomFront, List.mem_filter]
    refine ⟨hm, ?_⟩
    rw [Bool.not_eq_true', isDominatedIn, List.any_eq_false]
    intro b hb
    simp [hmax b hb]
  exact List.ne_nil_of_mem hmem

theorem filter_split_length (l : List Ind) (p : Ind → Bool) :
    (l.filter (fun x => !(p x))).length + (l.filter p).length = l.length := by
  induction l with
  | nil => simp
  | cons a t ih =>
    by_cases h : p a = true <;> simp [List.filter, h] <;> omega

theorem front_rest_length (l : List Ind) :
    (nondomFront l).length + (domRest l).length = l.length :=
  filter_split_length l (isDominatedIn l)

theorem sumLen_cons (f : List Ind) (fs : List (List Ind)) :
    sumLen (f :: fs) = f.length + sumLen fs := by
  simp [sumLen]

theorem frontsFrom_facts : ∀ (fuel : Nat) (l : List Ind) (need : Nat),
    (∀ x ∈ l, FiniteFit x) → l.length < fuel → need ≤ l.length →
    frontsFrom fuel l need ≠ [] ∧
    need ≤ sumLen (frontsFrom fuel l need) ∧
    sumLen (frontsFrom fuel l need) ≤ l.length ∧
    (0 < need → sumLen (frontsFrom fuel l need).dropLast < need) ∧
    (∀ f ∈ frontsFrom fuel l need, ∀ x ∈ f, x ∈ l) := by
  intro fuel
  induction fuel with
  | zero => intro l need _ hfuel _; omega
  | succ fuel ih =>
    intro l need hf hfuel hneed
    rw [frontsFrom]
    by_cases hbr : need ≤ (nondomFront l).length
    · simp only [hbr, if_pos]
      refine ⟨by simp, ?_, ?_, ?_, ?_⟩
      · simpa [sumLen] using hbr
      · simpa [sumLen] using List.length_filter_le _ l
      · intro _; simp [sumLen]; omega
      · intro f hfm x hx
        rw [List.mem_singleton] at hfm
        subst hfm
        exact (List.mem_filter.mp hx).1
    · simp only [hbr, if_neg, not_false_iff]
      have hlne : l ≠ [] := by
        intro h
        subst h
        simp at hneed
        omega
      have hfr := nondomFront_ne_nil l hlne hf
      have hfrlen : 0 < (nondomFront l).length := List.length_pos.mpr hfr
      have hsplit := front_rest_length l
      have hrest_f : ∀ x ∈ domRest l, FiniteFit x := by
        intro x hx
        exact hf x (List.mem_filter.mp hx).1
      have hrest_fuel : (domRest l).length < fuel := by omega
      have hrest_need : need - (nondomFront l).length ≤ (domRest l).length := by omega
      obtain ⟨ih1, ih2, ih3, ih4, ih5⟩ := ih (domRest l) (need - (nondomFront l).length)
        hrest_f hrest_fuel hrest_need
      refine ⟨by simp, ?_, ?_, ?_, ?_⟩
      · rw [sumLen_cons]; omega
      · rw [sumLen_cons]; omega
      · intro hpos
        match hrec : frontsFrom fuel (domRest l) (need - (nondomFront l).length) with
        | [] => exact absurd hrec ih1
        | g :: gs =>
          rw [hrec] at ih4
          have hdl : ((nondomFront l :: g :: gs)).dropLast = nondomFront l :: (g :: gs).dropLast := by
            simp [List.dropLast]
          rw [hdl, sumLen_cons]
          have : 0 < need - (nondomFront l).length := by omega
          have h4 := ih4 this
          omega
      · intro f hfm x hx
        rcases List.mem_cons.mp hfm with rfl | hfm
        · exact (List.mem_filter.mp hx).1
        · exact (List.mem_filter.mp (ih5 f hfm x hx)).1

theorem insertLe_length (le : α → α → Bool) (x : α) (l : List α) :
    (insertLe le x l).length = l.length + 1 := by
  induction l with
  | nil => rfl
  | cons y ys ih => by_cases h : le x y <;> simp [insertLe, h, ih]

theorem insSortBy_length (le : α → α → Bool) (l : List α) :
    (insSortBy le l).length = l.length := by
  induction l with
  | nil => rfl
  | cons x t ih => simp [insSortBy, insertLe_length, ih]

theorem insertLe_mem {le : α → α → Bool} {x y : α} {l : List α}
    (h : y ∈ insertLe le x l) : y = x ∨ y ∈ l := by
  induction l with
  | nil =>
    rw [insertLe, List.mem_singleton] at h
    exact Or.inl h
  | cons z zs ih =>
    rw [insertLe] at h
    by_cases hc : le x z = true
    · rw [if_pos hc] at h
      rcases List.mem_cons.mp h with rfl | h
      · exact Or.inl rfl
      · exact Or.inr h
    · rw [if_neg hc] at h
      rcases List.mem_cons.mp h with rfl | h
      · exact Or.inr (List.mem_cons_self _ _)
      · rcases ih h with h | h
        · exact Or.inl h
        · exact Or.inr (List.mem_cons_of_mem _ h)

theorem insSortBy_mem {le : α → α → Bool} {x : α} : ∀ {l : List α},
    x ∈ insSortBy le l → x ∈ l := by
  intro l
  induction l with
  | nil => intro h; simp [insSortBy] at h
  | cons a t ih =>
    intro h
    rw [insSortBy] at h
    rcases insertLe_mem h with rfl | h
    · exact List.mem_cons_self _ _
    · exact List.mem_cons_of_mem _ (ih h)

theorem cdUpdates_length (j : Nat) (norm : F) : ∀ (cr : List (F3 × Nat)) (ds : List F),
    (cdUpdates j norm cr ds).length = ds.length := by
  intro cr
  induction cr with
  | nil => intro ds; rfl
  | cons p t ih =>
    intro ds
    cases t with
    | nil => rfl
    | cons c t2 =>
      cases t2 with
      | nil => rfl
      | cons nx rest =>
        rw [cdUpdates, ih]
        simp [List.length_set]

theorem cdPass_length (cr : List (F3 × Nat)) (ds : List F) (j : Nat) :
    (cdPass cr ds j).length = ds.length := by
  unfold cdPass
  cases hc : insSortBy (fun a b => !(F.fgt (proj3 j a.1) (proj3 j b.1))) cr with
  | nil => rfl
  | cons first rest =>
    by_cases hb : F.beq (proj3 j (lastD (first :: rest) first).1) (proj3 j first.1) = true
    · simp [hb, List.length_set]
    · simp [hb, cdUpdates_length, List.length_set]

theorem foldl_cdPass_length (cr : List (F3 × Nat)) : ∀ (js : List Nat) (ds : List F),
    (js.foldl (cdPass cr) ds).length = ds.length := by
  intro js
  induction js with
  | nil => intro ds; rfl
  | cons j t ih => intro ds; rw [List.foldl_cons, ih, cdPass_length]

theorem acd_length (l : List Ind) : (assignCrowdingDist l).length = l.length := by
  cases l with
  | nil => rfl
  | cons a t =>
    unfold assignCrowdingDist
    have hds : (([0, 1, 2] : List Nat).foldl (cdPass (enumIdx 0 (a :: t)))
        (List.replicate (a :: t).length (F.fin 0))).length = (a :: t).length := by
      rw [foldl_cdPass_length, List.length_replicate]
    rw [List.length_zipWith, hds]
    simp

theorem zipWith_cd_fit : ∀ (l : List Ind) (ds : List F) (x : Ind),
    x ∈ List.zipWith (fun a d => { a with cd := d }) l ds → ∃ y ∈ l, x.fit = y.fit ∧ x.g = y.g := by
  intro l
  induction l with
  | nil => intro ds x h; simp at h
  | cons a t ih =>
    intro ds x h
    cases ds with
    | nil => simp at h
    | cons d ds2 =>
      rw [List.zipWith_cons_cons] at h
      rcases List.mem_cons.mp h with rfl | h
      · exact ⟨a, List.mem_cons_self _ _, rfl, rfl⟩
      · obtain ⟨y, hy, hfit⟩ := ih ds2 x h
        exact ⟨y, List.mem_cons_of_mem _ hy, hfit⟩

theorem acd_fit (l : List Ind) (x : Ind) (h : x ∈ assignCrowdingDist l) :
    ∃ y ∈ l, x.fit = y.fit ∧ x.g = y.g := by
  cases l with
  | nil => simp [assignCrowdingDist] at h
  | cons a t =>
    unfold assignCrowdingDist at h
    exact zipWith_cd_fit _ _ _ h

theorem lastD_mem : ∀ (l : List α) (d : α), l ≠ [] → lastD l d ∈ l := by
  intro l
  induction l with
  | nil => intro d h; exact absurd rfl h
  | cons a t ih =>
    intro d h
    cases t with
    | nil => simp [lastD]
    | cons b t2 =>
      rw [lastD]
      exact List.mem_cons_of_mem _ (ih d (by simp))

theorem sumLen_split : ∀ (fs : List (List Ind)), fs ≠ [] →
    sumLen fs = sumLen fs.dropLast + (lastD fs []).length := by
  intro fs
  induction fs with
  | nil => intro h; exact absurd rfl h
  | cons f fs2 ih =>
    intro h
    cases fs2 with
    | nil => simp [sumLen, lastD]
    | cons g gs =>
      have hih := ih (by simp)
      rw [lastD]
      have hdl : (f :: g :: gs).dropLast = f :: (g :: gs).dropLast := by simp [List.dropLast]
      rw [hdl, sumLen_cons, sumLen_cons, sumLen_cons]
      rw [sumLen_cons] at hih
      omega

theorem sumLen_map_acd (fs : List (List Ind)) : sumLen (fs.map assignCrowdingDist) = sumLen fs := by
  induction fs with
  | nil => rfl
  | cons f t ih => simp [sumLen_cons, acd_length, ih]

theorem dropLast_map_acd : ∀ (fs : List (List Ind)),
    (fs.map assignCrowdingDist).dropLast = fs.dropLast.map assignCrowdingDist := by
  intro fs
  induction fs with
  | nil => rfl
  | cons f t ih =>
    cases t with
    | nil => rfl
    | cons g gs =>
      rw [List.map_cons, List.map_cons]
      have h1 : (f :: g :: gs).dropLast = f :: (g :: gs).dropLast := by simp [List.dropLast]
      have h2 : (assignCrowdingDist f :: assignCrowdingDist g :: gs.map assignCrowdingDist).dropLast
          = assignCrowdingDist f :: (assignCrowdingDist g :: gs.map assignCrowdingDist).dropLast := by
        simp [List.dropLast]
      rw [h1, h2, List.map_cons]
      rw [List.map_cons] at ih
      rw [ih]

theorem lastD_map_acd : ∀ (fs : List (List Ind)),
    lastD (fs.map assignCrowdingDist) [] = assignCrowdingDist (lastD fs []) := by
  intro fs
  induction fs with
  | nil => rfl
  | cons f t ih =>
    cases t with
    | nil => simp [lastD]
    | cons g gs =>
      rw [List.map_cons, List.map_cons, lastD, lastD]
      rw [List.map_cons] at ih
      exact ih

theorem frontsFrom_mem : ∀ (fuel : Nat) (l : List Ind) (need : Nat),
    ∀ f ∈ frontsFrom fuel l need, ∀ x ∈ f, x ∈ l := by
  intro fuel
  induction fuel with
  | zero => intro l need f hf; simp [frontsFrom] at hf
  | succ fuel ih =>
    intro l need f hf x hx
    rw [frontsFrom] at hf
    by_cases hbr : need ≤ (nondomFront l).length
    · rw [if_pos hbr, List.mem_singleton] at hf
      subst hf
      exact (List.mem_filter.mp hx).1
    · rw [if_neg hbr] at hf
      rcases List.mem_cons.mp hf with rfl | hf
      · exact (List.mem_filter.mp hx).1
      · exact (List.mem_filter.mp (ih _ _ f hf x hx)).1

theorem sortNondominated_mem (l : List Ind) (k : Nat) :
    ∀ f ∈ sortNondominated l k, ∀ x ∈ f, x ∈ l := by
  unfold sortNondominated
  by_cases hk : k = 0
  · simp [hk]
  · rw [if_neg hk]
    exact frontsFrom_mem _ _ _

theorem selNSGA2_fit_mem (l : List Ind) (k : Nat) (x : Ind) (h : x ∈ selNSGA2 l k) :
    ∃ y ∈ l, x.fit = y.fit ∧ x.g = y.g := by
  simp only [selNSGA2] at h
  rcases List.mem_append.mp h with h | h
  · rw [List.mem_flatten] at h
    obtain ⟨f, hf1, hf2⟩ := h
    rw [dropLast_map_acd, List.mem_map] at hf1
    obtain ⟨f0, hf0, rfl⟩ := hf1
    obtain ⟨y, hy, hfit⟩ := acd_fit f0 x hf2
    exact ⟨y, sortNondominated_mem l k f0 (List.dropLast_subset _ hf0) y hy, hfit⟩
  · have h1 := List.take_subset _ _ h
    have h2 := insSortBy_mem h1
    rw [lastD_map_acd] at h2
    obtain ⟨y, hy, hfit⟩ := acd_fit _ x h2
    cases hfs : sortNondominated l k with
    | nil =>
      rw [hfs] at hy
      simp [lastD] at hy
    | cons f0 fs0 =>
      rw [hfs] at hy
      have hlm : lastD (f0 :: fs0) [] ∈ f0 :: fs0 := lastD_mem _ _ (by simp)
      rw [← hfs] at hlm
      exact ⟨y, sortNondominated_mem l k _ hlm y (by rw [hfs]; exact hy), hfit⟩

theorem selNSGA2_length (l : List Ind) (k : Nat) (hf : ∀ x ∈ l, FiniteFit x) :
    (selNSGA2 l k).length = min l.length k := by
  by_cases hk : k = 0
  · subst hk
    simp [selNSGA2, sortNondominated, lastD, insSortBy]
  · by_cases hl : l = []
    · subst hl
      simp only [selNSGA2, sortNondominated, if_neg hk]
      simp [frontsFrom, nondomFront, domRest, isDominatedIn, assignCrowdingDist, lastD, insSortBy]
    · have hlpos : 0 < l.length := List.length_pos.mpr hl
      have hNle : min l.length k ≤ l.length := min_le_left _ _
      have hNpos : 0 < min l.length k := by
        rcases Nat.eq_zero_or_pos k with rfl | hkp
        · exact absurd rfl hk
        · omega
      obtain ⟨hne, hgeN, hleL, hdrop, -⟩ :=
        frontsFrom_facts (l.length + 1) l (min l.length k) hf (by omega) hNle
      have hsplit := sumLen_split _ hne
      have hd := hdrop hNpos
      simp only [selNSGA2, sortNondominated, if_neg hk]
      have hchosen : (((frontsFrom (l.length + 1) l (min l.length k)).map
          assignCrowdingDist).dropLast.flatten).length
          = sumLen (frontsFrom (l.length + 1) l (min l.length k)).dropLast := by
        rw [List.length_flatten, dropLast_map_acd]
        exact sumLen_map_acd _
      have hlast : (insSortBy (fun a b => !(F.flt a.cd b.cd))
          (lastD ((frontsFrom (l.length + 1) l (min l.length k)).map assignCrowdingDist) [])).length
          = (lastD (frontsFrom (l.length + 1) l (min l.length k)) []).length := by
        rw [insSortBy_length, lastD_map_acd, acd_length]
      rw [List.length_append, List.length_take, hchosen, hlast]
      omega

theorem getD_mem {α : Type} {l : List α} {i : Nat} (h : i < l.length) (d : α) :
    l.getD i d ∈ l := by
  rw [List.getD_eq_getElem?_getD, List.getElem?_eq_getElem h, Option.getD_some]
  exact List.getElem_mem h

theorem shuffleBy_length (p : Nat → Nat) (l : List Ind) : (shuffleBy p l).length = l.length := by
  simp [shuffleBy]

theorem shuffleBy_mem (p : Nat → Nat) (l : List Ind) (hl : l ≠ []) (x : Ind)
    (h : x ∈ shuffleBy p l) : x ∈ l := by
  rw [shuffleBy, List.mem_map] at h
  obtain ⟨i, hi, rfl⟩ := h
  exact getD_mem (Nat.mod_lt _ (List.length_pos.mpr hl)) dInd

theorem tourn_mem (c : Bool) (a b : Ind) : tourn c a b = a ∨ tourn c a b = b := by
  unfold tourn
  split_ifs <;> simp

theorem dcdQuads_length (c : Nat → Bool) (l1 l2 : List Ind) : ∀ (q i : Nat),
    (dcdQuads c l1 l2 q i).length = 4 * q := by
  intro q
  induction q with
  | zero => intro i; rfl
  | succ q ih =>
    intro i
    rw [dcdQuads]
    simp only [List.length_cons, ih]
    omega

theorem dcdQuads_mem (c : Nat → Bool) (l1 l2 : List Ind) : ∀ (q i : Nat),
    i + 4 * q ≤ l1.length → i + 4 * q ≤ l2.length →
    ∀ x ∈ dcdQuads c l1 l2 q i, x ∈ l1 ∨ x ∈ l2 := by
  intro q
  induction q with
  | zero => intro i h1 h2 x hx; simp [dcdQuads] at hx
  | succ q ih =>
    intro i h1 h2 x hx
    rw [dcdQuads] at hx
    rcases List.mem_cons.mp hx with rfl | hx
    · rcases tourn_mem (c i) (l1.getD i dInd) (l1.getD (i + 1) dInd) with h | h <;> rw [h] <;>
        exact Or.inl (getD_mem (by omega) dInd)
    rcases List.mem_cons.mp hx with rfl | hx
    · rcases tourn_mem (c (i + 1)) (l1.getD (i + 2) dInd) (l1.getD (i + 3) dInd) with h | h <;>
        rw [h] <;> exact Or.inl (getD_mem (by omega) dInd)
    rcases List.mem_cons.mp hx with rfl | hx
    · rcases tourn_mem (c (i + 2)) (l2.getD i dInd) (l2.getD (i + 1) dInd) with h | h <;>
        rw [h] <;> exact Or.inr (getD_mem (by omega) dInd)
    rcases List.mem_cons.mp hx with rfl | hx
    · rcases tourn_mem (c (i + 3)) (l2.getD (i + 2) dInd) (l2.getD (i + 3) dInd) with h | h <;>
        rw [h] <;> exact Or.inr (getD_mem (by omega) dInd)
    exact ih (i + 4) (by omega) (by omega) x hx

theorem selTournamentDCD_spec (tr : TournRand) (l : List Ind) (k : Nat)
    (hk : k ≤ l.length) (h4 : k % 4 = 0) :
    ∃ out, selTournamentDCD tr l k = some out ∧ out.length = k ∧ ∀ x ∈ out, x ∈ l := by
  unfold selTournamentDCD
  rw [if_neg (by omega), if_neg (by simp [h4])]
  refine ⟨_, rfl, ?_, ?_⟩
  · rw [dcdQuads_length]
    omega
  · intro x hx
    have hq1 : 0 + 4 * (k / 4) ≤ (shuffleBy tr.perm1 l).length := by
      rw [shuffleBy_length]
      omega
    have hq2 : 0 + 4 * (k / 4) ≤ (shuffleBy tr.perm2 l).length := by
      rw [shuffleBy_length]
      omega
    by_cases hl : l = []
    · subst hl
      have hk0 : k = 0 := by simpa using hk
      subst hk0
      simp [dcdQuads] at hx
    · rcases dcdQuads_mem _ _ _ _ _ hq1 hq2 x hx with h | h
      · exact shuffleBy_mem _ _ hl _ h
      · exact shuffleBy_mem _ _ hl _ h

theorem pairRec {motive : List Ind → Prop} (h0 : motive []) (h1 : ∀ a, motive [a])
    (h2 : ∀ a b t, motive t → motive (a :: b :: t)) : ∀ l, motive l := by
  have key : ∀ (n : Nat) (l : List Ind), l.length ≤ n → motive l := by
    intro n
    induction n with
    | zero =>
      intro l hl
      rw [Nat.le_zero, List.length_eq_zero] at hl
      rw [hl]
      exact h0
    | succ n ih =>
      intro l hl
      match l with
      | [] => exact h0
      | [a] => exact h1 a
      | a :: b :: t =>
        refine h2 a b t (ih t ?_)
        simp only [List.length_cons] at hl
        omega
  exact fun l => key l.length l le_rfl

theorem varyCx_length (f : Nat → Bool) (u : Nat → ℚ × ℚ × ℚ) : ∀ (l : List Ind) (i : Nat),
    (varyCx f u i l).length = l.length := by
  refine @pairRec (fun l => ∀ i, (varyCx f u i l).length = l.length) ?_ ?_ ?_
  · intro i; rfl
  · intro a i; rfl
  · intro a b t ih i
    by_cases hc : f i = true <;> simp [varyCx, hc, ih]

theorem varyCx_mem (f : Nat → Bool) (u : Nat → ℚ × ℚ × ℚ) : ∀ (l : List Ind) (i : Nat) (x : Ind),
    x ∈ varyCx f u i l → x ∈ l ∨ x.fit = none := by
  refine @pairRec (fun l => ∀ i x, x ∈ varyCx f u i l → x ∈ l ∨ x.fit = none) ?_ ?_ ?_
  · intro i x hx
    exact Or.inl hx
  · intro a i x hx
    exact Or.inl hx
  · intro a b t ih i x hx
    rw [varyCx] at hx
    by_cases hc : f i = true
    · rw [if_pos hc] at hx
      rcases List.mem_cons.mp hx with rfl | hx
      · exact Or.inr rfl
      rcases List.mem_cons.mp hx with rfl | hx
      · exact Or.inr rfl
      rcases ih (i + 2) x hx with h | h
      · exact Or.inl (List.mem_cons_of_mem _ (List.mem_cons_of_mem _ h))
      · exact Or.inr h
    · rw [if_neg hc] at hx
      rcases List.mem_cons.mp hx with rfl | hx
      · exact Or.inl (List.mem_cons_self _ _)
      rcases List.mem_cons.mp hx with rfl | hx
      · exact Or.inl (List.mem_cons_of_mem _ (List.mem_cons_self _ _))
      rcases ih (i + 2) x hx with h | h
      · exact Or.inl (List.mem_cons_of_mem _ (List.mem_cons_of_mem _ h))
      · exact Or.inr h

theorem varyMut_length (mf : Nat → Bool) (ip : Nat → Bool × Bool × Bool)
    (gs : Nat → ℚ × ℚ × ℚ) : ∀ (l : List Ind) (i : Nat),
    (varyMut mf ip gs i l).length = l.length := by
  intro l
  induction l with
  | nil => intro i; rfl
  | cons a t ih => intro i; simp [varyMut, ih]

theorem mutStep_cases (mflag : Bool) (ipb : Bool × Bool × Bool) (gsv : ℚ × ℚ × ℚ) (x : Ind) :
    mutStep mflag ipb gsv x = x ∨ (mutStep mflag ipb gsv x).fit = none := by
  unfold mutStep
  by_cases h : mflag = true <;> simp [h]

theorem varyMut_mem (mf : Nat → Bool) (ip : Nat → Bool × Bool × Bool)
    (gs : Nat → ℚ × ℚ × ℚ) : ∀ (l : List Ind) (i : Nat) (x : Ind),
    x ∈ varyMut mf ip gs i l → x ∈ l ∨ x.fit = none := by
  intro l
  induction l with
  | nil => intro i x hx; exact Or.inl hx
  | cons a t ih =>
    intro i x hx
    rw [varyMut] at hx
    rcases List.mem_cons.mp hx with rfl | hx
    · rcases mutStep_cases (mf i) (ip i) (gs i) a with h | h
      · rw [h]; exact Or.inl (List.mem_cons_self _ _)
      · exact Or.inr h
    · rcases ih (i + 1) x hx with h | h
      · exact Or.inl (List.mem_cons_of_mem _ h)
      · exact Or.inr h

theorem evalAll_spec {ev : Genome → Option F3} (hev : oracleFin ev) : ∀ (l : List Ind),
    ∃ l2, evalAll ev l = some l2 ∧ l2.length = l.length ∧ ∀ x ∈ l2, FiniteFit x := by
  intro l
  induction l with
  | nil => exact ⟨[], rfl, rfl, by simp⟩
  | cons a t ih =>
    obtain ⟨l2, h1, h2, h3⟩ := ih
    obtain ⟨p, q, r, hpq⟩ := hev a.g
    refine ⟨{ a with fit := some (F.fin p, F.fin q, F.fin r) } :: l2, ?_, by simp [h2], ?_⟩
    · simp [evalAll, hpq, h1]
    · intro x hx
      rcases List.mem_cons.mp hx with rfl | hx
      · exact ⟨p, q, r, rfl⟩
      · exact h3 x hx

theorem evalInvalid_spec {ev : Genome → Option F3} (hev : oracleFin ev) : ∀ (l : List Ind),
    (∀ x ∈ l, x.fit = none ∨ FiniteFit x) →
    ∃ l2, evalInvalid ev l = some l2 ∧ l2.length = l.length ∧ ∀ x ∈ l2, FiniteFit x := by
  intro l
  induction l with
  | nil => intro _; exact ⟨[], rfl, rfl, by simp⟩
  | cons a t ih =>
    intro h
    obtain ⟨l2, h1, h2, h3⟩ := ih (fun x hx => h x (List.mem_cons_of_mem _ hx))
    rcases h a (List.mem_cons_self _ _) with hfit | hfit
    · obtain ⟨p, q, r, hpq⟩ := hev a.g
      refine ⟨{ a with fit := some (F.fin p, F.fin q, F.fin r) } :: l2, ?_, by simp [h2], ?_⟩
      · simp [evalInvalid, hfit, hpq, h1]
      · intro x hx
        rcases List.mem_cons.mp hx with rfl | hx
        · exact ⟨p, q, r, rfl⟩
        · exact h3 x hx
    · refine ⟨a :: l2, ?_, by simp [h2], ?_⟩
      · have hs : a.fit.isNone = false := by
          obtain ⟨p, q, r, hh⟩ := hfit
          simp [hh]
        simp [evalInvalid, hs, h1]
      · intro x hx
        rcases List.mem_cons.mp hx with rfl | hx
        · exact hfit
        · exact h3 x hx

theorem runGen_spec {ev : Genome → Option F3} (hev : oracleFin ev) (r : GenRand)
    (popSize : Nat) (h4 : popSize % 4 = 0) (pop : List Ind) (hp : GoodPop popSize pop) :
    ∃ pop2, runGen ev r popSize pop = some pop2 ∧ GoodPop popSize pop2 := by
  obtain ⟨hlen, hfin⟩ := hp
  obtain ⟨off, ho1, ho2, ho3⟩ :=
    selTournamentDCD_spec r.tr pop pop.length le_rfl (by rw [hlen]; exact h4)
  have hofffin : ∀ x ∈ off, FiniteFit x := fun x hx => hfin x (ho3 x hx)
  have hv : ∀ x ∈ varyMut r.mutFlag r.mutIndpb r.mutGauss 0 (varyCx r.cxFlag r.cxU 0 off),
      x.fit = none ∨ FiniteFit x := by
    intro x hx
    rcases varyMut_mem _ _ _ _ _ x hx with h | h
    · rcases varyCx_mem _ _ _ _ x h with h2 | h2
      · exact Or.inr (hofffin x h2)
      · exact Or.inl h2
    · exact Or.inl h
  obtain ⟨off3, he1, he2, he3⟩ := evalInvalid_spec hev _ hv
  have hofflen : off3.length = popSize := by
    rw [he2, varyMut_length, varyCx_length, ho2, hlen]
  have hall : ∀ x ∈ pop ++ off3, FiniteFit x := by
    intro x hx
    rcases List.mem_append.mp hx with h | h
    · exact hfin x h
    · exact he3 x h
  refine ⟨selNSGA2 (pop ++ off3) popSize, ?_, ?_, ?_⟩
  · rw [runGen, ho1]
    simp [he1]
  · rw [selNSGA2_length _ _ hall, List.length_append, hlen, hofflen]
    omega
  · intro x hx
    obtain ⟨y, hy, hfit, -⟩ := selNSGA2_fit_mem _ _ x hx
    obtain ⟨a, b, c, hh⟩ := hall y hy
    exact ⟨a, b, c, by rw [hfit, hh]⟩

theorem runGens_spec {ev : Genome → Option F3} (hev : oracleFin ev) (rand : Nat → GenRand)
    (popSize : Nat) (h4 : popSize % 4 = 0) : ∀ (n gen : Nat) (pop : List Ind),
    GoodPop popSize pop →
    ∃ tr, runGens ev rand popSize gen n pop = some tr ∧ tr.length = n + 1 ∧
      ∀ p ∈ tr, p.length = popSize := by
  intro n
  induction n with
  | zero =>
    intro gen pop hp
    refine ⟨[pop], rfl, rfl, ?_⟩
    intro p hp2
    rw [List.mem_singleton] at hp2
    subst hp2
    exact hp.1
  | succ n ih =>
    intro gen pop hp
    obtain ⟨pop2, h1, h2⟩ := runGen_spec hev (rand gen) popSize h4 pop hp
    obtain ⟨tr, ht1, ht2, ht3⟩ := ih (gen + 1) pop2 h2
    refine ⟨pop :: tr, ?_, by simp [ht2], ?_⟩
    · rw [runGens, h1]
      simp [ht1]
    · intro p hp2
      rcases List.mem_cons.mp hp2 with rfl | hp2
      · exact hp.1
      · exact ht3 p hp2

theorem runGA_spec {ev : Genome → Option F3} (hev : oracleFin ev) (rand : Nat → GenRand)
    (popSize ngen : Nat) (initG : List Genome) (h4 : popSize % 4 = 0)
    (hlen : initG.length = popSize) :
    ∃ tr, runGA ev rand popSize ngen initG = some tr ∧ tr.length = ngen + 1 ∧
      ∀ p ∈ tr, p.length = popSize := by
  obtain ⟨pop1, h1, h2, h3⟩ :=
    evalAll_spec hev ((initG ++ anchors).map (fun x => Ind.mk (clip_params x) none (F.fin 0)))
  have hplen : pop1.length = popSize + 4 := by
    rw [h2]
    simp [anchors, hlen]
  have hsel : GoodPop popSize (selNSGA2 pop1 popSize) := by
    constructor
    · rw [selNSGA2_length _ _ h3, hplen]
      omega
    · intro x hx
      obtain ⟨y, hy, hfit, -⟩ := selNSGA2_fit_mem _ _ x hx
      obtain ⟨a, b, c, hh⟩ := h3 y hy
      exact ⟨a, b, c, by rw [hfit, hh]⟩
  obtain ⟨tr, ht1, ht2, ht3⟩ := runGens_spec hev rand popSize h4 ngen 1 (selNSGA2 pop1 popSize) hsel
  refine ⟨tr, ?_, ht2, ht3⟩
  rw [runGA, h1]
  simp [ht1]

/-! Lemmas about parse_log and fitness_eval. -/

theorem fitness_eval_oob (o : ProcOutcome) (ind : Genome) (h : inBoundsB ind = false) :
    fitness_eval o ind = some sentinelF := by
  unfold fitness_eval
  rw [if_pos h]

theorem fitness_eval_timeout_lem (ind : Genome) :
    fitness_eval .timeout ind = some sentinelF := by
  unfold fitness_eval
  by_cases h : inBoundsB ind = false
  · rw [if_pos h]
  · rw [if_neg h]
    simp [run_ltspice]

theorem fitness_eval_notFound_lem (ind : Genome) :
    fitness_eval .notFound ind = some sentinelF := by
  unfold fitness_eval
  by_cases h : inBoundsB ind = false
  · rw [if_pos h]
  · rw [if_neg h]
    simp [run_ltspice]

theorem fitness_eval_nolog_lem (rc : ℤ) (ind : Genome) :
    fitness_eval (.completed rc none) ind = some sentinelF := by
  unfold fitness_eval
  by_cases h : inBoundsB ind = false
  · rw [if_pos h]
  · rw [if_neg h]
    simp [run_ltspice]

theorem parse_log_fatal (txt m : String) (hm : m ∈ FATAL_MARKERS)
    (hc : containsCI txt m = true) :
    ∃ r, r ∈ FATAL_MARKERS ∧ containsCI txt r = true ∧ parse_log txt = some (.failure r) := by
  have hs : (FATAL_MARKERS.find? (fun m2 => containsCI txt m2)).isSome := by
    rw [List.find?_isSome]
    exact ⟨m, hm, hc⟩
  obtain ⟨r, hr⟩ := Option.isSome_iff_exists.mp hs
  refine ⟨r, List.mem_of_find?_eq_some hr, List.find?_some hr, ?_⟩
  unfold parse_log
  rw [hr]

theorem fitness_eval_parsefail (rc : ℤ) (txt : String) (ind : Genome) (r : String)
    (hp : parse_log txt = some (.failure r)) :
    fitness_eval (.completed rc (some txt)) ind = some sentinelF := by
  unfold fitness_eval
  by_cases hb : inBoundsB ind = false
  · rw [if_pos hb]
  · rw [if_neg hb]
    simp [run_ltspice, hp]

theorem fitness_eval_success (rc : ℤ) (txt : String) (ind : Genome) (g f i : Option Dec)
    (hp : parse_log txt = some (.success g f i)) (hb : inBoundsB ind = true) :
    fitness_eval (.completed rc (some txt)) ind
      = some (fitFromParsed (g.map Dec.toF) (f.map Dec.toF) (i.map Dec.toF)) := by
  unfold fitness_eval
  rw [if_neg (by simp [hb])]
  simp [run_ltspice, hp]

theorem fitFromParsed_gain_none (u i : Option F) : fitFromParsed none u i = sentinelF := by
  unfold fitFromParsed
  simp [F.isFinite, F.beq]

theorem fitFromParsed_gain_neg360 (u i : Option F) :
    fitFromParsed (some (F.fin (-360))) u i = sentinelF := by
  unfold fitFromParsed
  simp [F.isFinite, F.beq]

theorem fitFromParsed_gain_nonfinite (g : F) (u i : Option F) (hg : g.isFinite = false) :
    fitFromParsed (some g) u i = sentinelF := by
  unfold fitFromParsed
  simp [hg, F.beq]

theorem fitFromParsed_ugbw_nonfinite (g : Option F) (u : F) (i : Option F)
    (hu : u.isFinite = false) : (fitFromParsed g (some u) i).2.1 = F.fin 0 := by
  unfold fitFromParsed
  simp only [Option.getD_some, hu, Bool.false_eq_true, if_false]
  split_ifs <;> simp [sentinelF]

theorem fitFromParsed_power_nonfinite (g u : Option F) (i : Option F)
    (hp : (if F.fgt (F.fabs (i.getD (F.fin 1000000000))) (F.fin 1000) then F.fin 1000
        else F.mul (F.fin 5) (F.fabs (i.getD (F.fin 1000000000)))).isFinite = false) :
    (fitFromParsed g u i).2.2 = F.fin 1000 := by
  unfold fitFromParsed
  simp only [hp, Bool.false_eq_true, if_false]
  split_ifs <;> simp [sentinelF]

theorem clipQ_bounds (lo hi x : ℚ) (h : lo ≤ hi) : lo ≤ clipQ lo hi x ∧ clipQ lo hi x ≤ hi :=
  ⟨le_min (le_max_right x lo) h, min_le_right _ _⟩

theorem clip_inBounds (x : Genome) : inBoundsB (clip_params x) = true := by
  unfold inBoundsB clip_params
  rw [decide_eq_true_eq]
  have h1 := clipQ_bounds WN_MIN WN_MAX x.Wn (by norm_num [WN_MIN, WN_MAX])
  have h2 := clipQ_bounds WP_MIN WP_MAX x.Wp (by norm_num [WP_MIN, WP_MAX])
  have h3 := clipQ_bounds V_MIN V_MAX x.Vbias (by norm_num [V_MIN, V_MAX])
  exact ⟨h1.1, h1.2, h2.1, h2.2, h3.1, h3.2⟩

theorem varyMut_getD (mf : Nat → Bool) (ip : Nat → Bool × Bool × Bool)
    (gs : Nat → ℚ × ℚ × ℚ) : ∀ (l : List Ind) (i0 i : Nat), i < l.length →
    (varyMut mf ip gs i0 l).getD i dInd
      = mutStep (mf (i0 + i)) (ip (i0 + i)) (gs (i0 + i)) (l.getD i dInd) := by
  intro l
  induction l with
  | nil => intro i0 i h; simp at h
  | cons a t ih =>
    intro i0 i h
    cases i with
    | zero => simp [varyMut]
    | succ i =>
      rw [varyMut, List.getD_cons_succ, List.getD_cons_succ]
      rw [ih (i0 + 1) i (by simp at h; omega)]
      have e : i0 + 1 + i = i0 + (i + 1) := by omega
      rw [e]

/-! Claim theorems. -/

/-- C1 (counterexample): the generation pipeline applies no clipping after
crossover.  Two parents inside bounds are mated (blend draw 0.9, gamma 1.14)
and not mutated; the first child leaves with an invalidated fitness (so it is
about to be evaluated) and a Wn gene strictly above WN_MAX. -/
theorem crossover_child_escapes_bounds :
    inBoundsB (cxDemoParents.getD 0 dInd).g = true ∧
    inBoundsB (cxDemoParents.getD 1 dInd).g = true ∧
    (cxDemoOffspring.getD 0 dInd).fit = none ∧
    WN_MAX < (cxDemoOffspring.getD 0 dInd).g.Wn := by
  refine ⟨?_, ?_, ?_, ?_⟩ <;>
    norm_num [cxDemoOffspring, cxDemoParents, varyMut, varyCx, mutStep, cxBlend, gammaOf,
      ALPHA, inBoundsB, WN_MIN, WN_MAX, WP_MIN, WP_MAX, V_MIN, V_MAX, List.getD]

/-- C1 (amended): a genome touched by the mutation loop is clipped, so every
mutated offspring has all genes inside the declared bounds before evaluation;
genomes touched only by crossover are not clipped and may leave bounds. -/
theorem mutated_offspring_in_bounds (cxf : Nat → Bool) (cxu : Nat → ℚ × ℚ × ℚ)
    (mf : Nat → Bool) (ip : Nat → Bool × Bool × Bool) (gs : Nat → ℚ × ℚ × ℚ)
    (off : List Ind) (i : Nat)
    (hi : i < (varyMut mf ip gs 0 (varyCx cxf cxu 0 off)).length)
    (hm : mf i = true) :
    inBoundsB ((varyMut mf ip gs 0 (varyCx cxf cxu 0 off)).getD i dInd).g = true := by
  have hi2 : i < (varyCx cxf cxu 0 off).length := by rwa [varyMut_length] at hi
  rw [varyMut_getD _ _ _ _ 0 i hi2]
  simp only [Nat.zero_add]
  rw [mutStep, if_pos hm]
  exact clip_inBounds _

/-- C1 (witness): the amended theorem at a concrete one-element offspring list
whose mutation draw fires. -/
theorem mutated_offspring_in_bounds_witness :
    inBoundsB ((varyMut (fun _ => true) (fun _ => (true, true, true)) (fun _ => (1, 1, 1)) 0
      (varyCx (fun _ => false) (fun _ => (0, 0, 0)) 0 [dInd])).getD 0 dInd).g = true :=
  mutated_offspring_in_bounds (fun _ => false) (fun _ => (0, 0, 0)) (fun _ => true)
    (fun _ => (true, true, true)) (fun _ => (1, 1, 1)) [dInd] 0
    (by simp [varyMut_length, varyCx_length]) rfl

/-- C2 (code bug): the source checks `"gain_db: FAILED" in txt.lower()`, an
uppercase literal searched inside a lowercased text, which can never hold; a
log carrying the simulator's FAILED flag for the gain measurement (with the
spec's `GAIN: FAILED` fragment present too, and a numeric gain elsewhere) is
parsed as a success with the numeric gain instead of a failure. -/
theorem gain_failed_flag_ignored :
    parse_log "GAIN: FAILED\ngain_db: FAILED\ngain_db: MAX(db(v(out)/v(in)))=(24.3,0)\n"
      = some (.success (some ⟨243, -1⟩) none none) := by decide

/-- C3 (counterexample): a log containing the fatal marker "Unknown model"
(inside "Fatal Error: Unknown model NMOS") parses to a failure whose reason is
"Fatal Error", not the marker "Unknown model" the text also contains, so the
reason is not always "that marker". -/
theorem fatal_marker_reason_counterexample :
    containsCI "Fatal Error: Unknown model NMOS" "Unknown model" = true ∧
    "Unknown model" ∈ FATAL_MARKERS ∧
    parse_log "Fatal Error: Unknown model NMOS" = some (.failure "Fatal Error") ∧
    "Fatal Error" ≠ "Unknown model" :=
  ⟨by decide, by decide, by decide, by decide⟩

/-- C3 (amended): for every log text containing any fatal marker
(case-insensitively), parse_log returns a failure whose reason is one of the
fatal markers contained in the text (the first in declaration order),
regardless of any measurement lines present. -/
theorem fatal_marker_failure (txt m : String) (hm : m ∈ FATAL_MARKERS)
    (hc : containsCI txt m = true) :
    ∃ r, r ∈ FATAL_MARKERS ∧ containsCI txt r = true ∧ parse_log txt = some (.failure r) :=
  parse_log_fatal txt m hm hc

/-- C3 (witness): the amended theorem on a log whose only marker is a
convergence failure, surrounded by a well-formed measurement line. -/
theorem fatal_marker_failure_witness :
    ∃ r, r ∈ FATAL_MARKERS ∧
      containsCI "gain_db: MAX(db(v(out)/v(in)))=(24.3,0)\nCould not converge to DC\n" r = true ∧
      parse_log "gain_db: MAX(db(v(out)/v(in)))=(24.3,0)\nCould not converge to DC\n"
        = some (.failure r) :=
  fatal_marker_failure _ "Could not converge to DC" (by decide) (by decide)

/-- C4 (counterexample): on the log of the claim, with the lines
`GAIN = 24.3 dB` and `FC = 3.16e+05`, parse_log succeeds but extracts no gain
value at all (the GAIN_DB regex requires the `gain_db: MAX(...)=(` form); only
fc = 3.16e5 is extracted, refuting `gain: 24.3`. -/
theorem parser_gain_line_counterexample :
    parse_log "GAIN = 24.3 dB\nFC = 3.16e+05\n" = some (.success none (some ⟨316, 3⟩) none) ∧
    Dec.toRat ⟨316, 3⟩ = 3.16e5 :=
  ⟨by decide, by norm_num [Dec.toRat]⟩

/-- C4 (amended): with the gain line in the simulator's measurement format
`gain_db: MAX(db(v(out)/v(in)))=(24.3,0)` together with `FC = 3.16e+05` and no
fatal markers, parse_log succeeds with gain 24.3 and fc 3.16e5. -/
theorem parser_meas_format :
    parse_log "gain_db: MAX(db(v(out)/v(in)))=(24.3,0)\nFC = 3.16e+05\n"
      = some (.success (some ⟨243, -1⟩) (some ⟨316, 3⟩) none) ∧
    Dec.toRat ⟨243, -1⟩ = 24.3 ∧ Dec.toRat ⟨316, 3⟩ = 3.16e5 :=
  ⟨by decide, by norm_num [Dec.toRat], by norm_num [Dec.toRat]⟩

/-- C5: a genome with any gene outside its declared bounds gets the sentinel
penalty fitness (-360, 0, 1e3) directly; the result is the same for every
simulator outcome `o`, so the external evaluator is never consulted. -/
theorem bounds_violation_skips_simulation (o : ProcOutcome) (ind : Genome)
    (h : inBoundsB ind = false) : fitness_eval o ind = some sentinelF :=
  fitness_eval_oob o ind h

/-- C5 (witness): the all-zero genome violates the bounds and is sentinel-rated
without simulation. -/
theorem bounds_violation_skips_simulation_witness :
    inBoundsB gZero = false ∧ fitness_eval .timeout gZero = some sentinelF := by
  have h : inBoundsB gZero = false := by
    norm_num [inBoundsB, gZero, WN_MIN, WN_MAX, WP_MIN, WP_MAX, V_MIN, V_MAX]
  exact ⟨h, bounds_violation_skips_simulation .timeout gZero h⟩

/-- C6: every failure outcome (timeout, executable not found, missing log,
fatal marker in the log, missing primary gain measurement) yields the same
sentinel vector (-360, 0, 1e3); and on success a non-finite gain, bandwidth,
or computed power value is coerced to its sentinel component. -/
theorem failure_modes_sentinel :
    (∀ ind, fitness_eval .timeout ind = some sentinelF) ∧
    (∀ ind, fitness_eval .notFound ind = some sentinelF) ∧
    (∀ rc ind, fitness_eval (.completed rc none) ind = some sentinelF) ∧
    (∀ rc txt ind m, m ∈ FATAL_MARKERS → containsCI txt m = true →
      fitness_eval (.completed rc (some txt)) ind = some sentinelF) ∧
    (∀ rc txt ind f i, parse_log txt = some (.success none f i) →
      fitness_eval (.completed rc (some txt)) ind = some sentinelF) ∧
    (∀ g u i, F.isFinite g = false → fitFromParsed (some g) u i = sentinelF) ∧
    (∀ g u i, F.isFinite u = false → (fitFromParsed g (some u) i).2.1 = F.fin 0) ∧
    (∀ g u (i : Option F),
      (if F.fgt (F.fabs (i.getD (F.fin 1000000000))) (F.fin 1000) then F.fin 1000
        else F.mul (F.fin 5) (F.fabs (i.getD (F.fin 1000000000)))).isFinite = false →
      (fitFromParsed g u i).2.2 = F.fin 1000) := by
  refine ⟨fitness_eval_timeout_lem, fitness_eval_notFound_lem, fitness_eval_nolog_lem,
    ?_, ?_, ?_, ?_, ?_⟩
  · intro rc txt ind m hm hc
    obtain ⟨r, -, -, hr⟩ := parse_log_fatal txt m hm hc
    exact fitness_eval_parsefail rc txt ind r hr
  · intro rc txt ind f i hp
    by_cases hb : inBoundsB ind = false
    · exact fitness_eval_oob _ _ hb
    · have hb2 : inBoundsB ind = true := by
        rcases Bool.eq_false_or_eq_true (inBoundsB ind) with h | h
        · exact h
        · exact absurd h hb
      rw [fitness_eval_success rc txt ind none f i hp hb2]
      simp [fitFromParsed_gain_none]
  · intro g u i hg
    exact fitFromParsed_gain_nonfinite g u i hg
  · intro g u i hu
    exact fitFromParsed_ugbw_nonfinite g u i hu
  · intro g u i hp
    exact fitFromParsed_power_nonfinite g u i hp

/-- C6 (witness): the conjuncts of the failure/sentinel theorem applied to
concrete outcomes, logs, and non-finite values. -/
theorem failure_modes_sentinel_witness :
    fitness_eval .timeout gZero = some sentinelF ∧
    fitness_eval (.completed 0 (some "Fatal Error")) gZero = some sentinelF ∧
    fitness_eval (.completed 0 (some "")) gZero = some sentinelF ∧
    fitFromParsed (some F.nan) (some (F.fin 7)) (some (F.fin 1)) = sentinelF ∧
    (fitFromParsed (some (F.fin 10)) (some F.inf) (some (F.fin 1))).2.1 = F.fin 0 ∧
    (fitFromParsed (some (F.fin 10)) (some (F.fin 7)) (some F.nan)).2.2 = F.fin 1000 :=
  ⟨failure_modes_sentinel.1 gZero,
   failure_modes_sentinel.2.2.2.1 0 "Fatal Error" gZero "Fatal Error" (by decide) (by decide),
   failure_modes_sentinel.2.2.2.2.1 0 "" gZero none none (by decide),
   failure_modes_sentinel.2.2.2.2.2.1 F.nan (some (F.fin 7)) (some (F.fin 1)) rfl,
   failure_modes_sentinel.2.2.2.2.2.2.1 (some (F.fin 10)) F.inf (some (F.fin 1)) rfl,
   failure_modes_sentinel.2.2.2.2.2.2.2 (some (F.fin 10)) (some (F.fin 7)) (some F.nan) rfl⟩

/-- C7: with the configured population size a multiple of four (as the
tournament selection requires) and evaluations always delivering finite
fitness triples, the run completes and the population at every generation
boundary — into and out of each elitist replacement — has exactly the
configured size: the initial random-plus-anchors population is trimmed to
pop_size by the first selection and the size never changes afterwards. -/
theorem population_size_invariant (ev : Genome → Option F3) (rand : Nat → GenRand)
    (popSize ngen : Nat) (initG : List Genome) (hev : oracleFin ev)
    (h4 : popSize % 4 = 0) (hlen : initG.length = popSize) :
    ∃ tr, runGA ev rand popSize ngen initG = some tr ∧ tr.length = ngen + 1 ∧
      ∀ p ∈ tr, p.length = popSize :=
  runGA_spec hev rand popSize ngen initG h4 hlen

/-- C7 (witness): a run with population 4 and one generation under a constant
oracle and constant randomness. -/
theorem population_size_invariant_witness :
    ∃ tr, runGA cOracle (fun _ => cGenRand) 4 1 [gZero, gZero, gZero, gZero] = some tr ∧
      tr.length = 1 + 1 ∧ ∀ p ∈ tr, p.length = 4 :=
  population_size_invariant cOracle (fun _ => cGenRand) 4 1 [gZero, gZero, gZero, gZero]
    (fun _ => ⟨1, 1, 1, rfl⟩) (by decide) rfl

/-- C8: the final-selection scalarization is strictly increasing in the gain
and bandwidth components and strictly decreasing in the power component,
holding the other components fixed. -/
theorem scalarize_monotone :
    (∀ g g2 u p : ℚ, g < g2 → scalarize (g, u, p) < scalarize (g2, u, p)) ∧
    (∀ g u u2 p : ℚ, u < u2 → scalarize (g, u, p) < scalarize (g, u2, p)) ∧
    (∀ g u p p2 : ℚ, p < p2 → scalarize (g, u, p2) < scalarize (g, u, p)) := by
  refine ⟨?_, ?_, ?_⟩ <;> intro a b c d h <;> unfold scalarize <;> dsimp only <;> nlinarith

/-- C8 (witness): the three monotonicity directions at concrete fitness
vectors. -/
theorem scalarize_monotone_witness :
    scalarize (1, 1, 1) < scalarize (2, 1, 1) ∧
    scalarize (1, 1, 1) < scalarize (1, 2, 1) ∧
    scalarize (1, 1, 2) < scalarize (1, 1, 1) :=
  ⟨scalarize_monotone.1 1 2 1 1 (by decide), scalarize_monotone.2.1 1 1 2 1 (by decide),
   scalarize_monotone.2.2 1 1 1 2 (by decide)⟩

/-- C9: a simulator timeout raises no exception to the evolutionary loop's
caller: run_ltspice maps the timeout to the TIMEOUT status, fitness_eval maps
that status to the sentinel fitness (a value, not an exception), and the loop
driven by such evaluations completes all ngen + 1 scheduled iterations. -/
theorem timeout_never_raises (rand : Nat → GenRand) (popSize ngen : Nat)
    (initG : List Genome) (h4 : popSize % 4 = 0) (hlen : initG.length = popSize) :
    (run_ltspice .timeout).1 = "TIMEOUT" ∧
    (∀ ind, fitness_eval .timeout ind = some sentinelF) ∧
    ∃ tr, runGA (fun g => fitness_eval .timeout g) rand popSize ngen initG = some tr ∧
      tr.length = ngen + 1 := by
  refine ⟨rfl, fitness_eval_timeout_lem, ?_⟩
  have hev : oracleFin (fun g => fitness_eval .timeout g) := by
    intro g
    refine ⟨-360, 0, 1000, ?_⟩
    show fitness_eval .timeout g = _
    rw [fitness_eval_timeout_lem]
    rfl
  obtain ⟨tr, h1, h2, -⟩ := runGA_spec hev rand popSize ngen initG h4 hlen
  exact ⟨tr, h1, h2⟩

/-- C9 (witness): a population-4, two-generation run where every evaluation
times out still produces all three generation boundaries. -/
theorem timeout_never_raises_witness :
    (run_ltspice .timeout).1 = "TIMEOUT" ∧
    (∀ ind, fitness_eval .timeout ind = some sentinelF) ∧
    ∃ tr, runGA (fun g => fitness_eval .timeout g) (fun _ => cGenRand) 4 2
        [gZero, gZero, gZero, gZero] = some tr ∧ tr.length = 2 + 1 :=
  timeout_never_raises (fun _ => cGenRand) 4 2 [gZero, gZero, gZero, gZero] (by decide) rfl

/-- C10: a successful parse whose gain_db value is exactly -360.0 is rated
with the failure sentinel by fitness_eval, exactly as a parse with no gain
measurement at all: -360.0 doubles as the missing-value default and the
failure test compares against it. -/
theorem gain_neg360_sentinel (rc : ℤ) (txt : String) (ind : Genome) (f i : Option Dec)
    (d : Dec) (hp : parse_log txt = some (.success (some d) f i)) (hd : d.toRat = -360) :
    fitness_eval (.completed rc (some txt)) ind = some sentinelF := by
  by_cases hb : inBoundsB ind = false
  · exact fitness_eval_oob _ _ hb
  · have hb2 : inBoundsB ind = true := by
      rcases Bool.eq_false_or_eq_true (inBoundsB ind) with h | h
      · exact h
      · exact absurd h hb
    rw [fitness_eval_success rc txt ind (some d) f i hp hb2]
    have hdf : Dec.toF d = F.fin (-360) := by rw [Dec.toF, hd]
    simp [hdf, fitFromParsed_gain_neg360]

/-- C10 (witness): a log whose gain measurement reads exactly -360 parses
successfully with gain -360 and is rated with the sentinel. -/
theorem gain_neg360_sentinel_witness :
    parse_log "gain_db: MAX(db(v(out)/v(in)))=(-360,0)\n"
      = some (.success (some ⟨-360, 0⟩) none none) ∧
    Dec.toRat ⟨-360, 0⟩ = -360 ∧
    fitness_eval (.completed 0 (some "gain_db: MAX(db(v(out)/v(in)))=(-360,0)\n")) gZero
      = some sentinelF :=
  ⟨by decide, by norm_num [Dec.toRat],
   gain_neg360_sentinel 0 _ gZero none none ⟨-360, 0⟩ (by decide) (by norm_num [Dec.toRat])⟩
